import Mathlib

/-!
EDNSSCANNER: the browser script `static/js/main.js`.

A shallow embedding of the script's four behaviours (domain validation on
submit, auto-refresh, CSV download confirmation, record-type tooltips) and
the properties of them that the specification states.

JavaScript strings are modelled as `List Char`.  The three regular
expressions of the script are written as values of `Regex`, an abstract
syntax for the fragment of ECMAScript patterns the script uses, and run by
`matchAll`, a backtracking matcher that follows the ECMAScript matcher
semantics (a greedy `RepeatMatcher` with its empty-iteration check), returning
every end state in backtracking priority order.  None of the patterns has the
`u` flag and none of their classes holds a character outside ASCII, so matching
character by character agrees with matching by UTF-16 code unit.
-/

namespace EDNS

/-! ECMAScript regular expressions (the fragment used by the script) -/

/-- ECMAScript pattern syntax: the assertions `^` and `$`, a character class
given by its ranges (a literal character `c` is the class `c-c`), an empty
alternative, a sequence, and a greedy quantifier `a{lo,hi}` (`hi = none` for an
open upper bound).  Groups only capture, and no capture is ever read by the
script, so a group is its body. -/
inductive Regex where
  | bol : Regex
  | eol : Regex
  | cls (ranges : List (Char × Char)) : Regex
  | empty : Regex
  | seq (a b : Regex) : Regex
  | rep (a : Regex) (lo : Nat) (hi : Option Nat) : Regex

namespace Regex

/-- A literal character. -/
def chr (c : Char) : Regex := cls [(c, c)]

/-- The quantifier `?`. -/
def opt (a : Regex) : Regex := rep a 0 (some 1)

/-- The quantifier `+`. -/
def plus (a : Regex) : Regex := rep a 1 none

/-- A sequence of terms, as they are written one after the other in a pattern. -/
def seqs : List Regex → Regex
  | [] => empty
  | a :: as => seq a (seqs as)

end Regex

/-- Membership of a character in a character class. -/
def inClass (ranges : List (Char × Char)) (c : Char) : Bool :=
  ranges.any fun r => decide (r.1 ≤ c) && decide (c ≤ r.2)

/-- A matcher state: the index reached in the input and the input that is left. -/
abbrev MState := Nat × List Char

/-- ECMAScript `RepeatMatcher` for a greedy quantifier, over a matcher `m` of
the quantified atom.  An iteration that consumes nothing once the minimum is
reached is dropped; more iterations are preferred to fewer.  `fuel` bounds
the number of iterations. -/
def repAll (m : MState → List MState) : Nat → Nat → Option Nat → MState → List MState
  | 0, _, _, _ => []
  | fuel + 1, lo, hi, x =>
    if hi = some 0 then [x]
    else
      let more := (m x).flatMap fun y =>
        if lo = 0 ∧ y.1 = x.1 then [] else repAll m fuel (lo - 1) (hi.map (· - 1)) y
      if lo = 0 then more ++ [x] else more

/-- All end states of a match of `r` that starts in state `x`, in the order in
which the backtracking matcher of ECMAScript tries them. -/
def matchAll : Regex → MState → List MState
  | .bol, x => if x.1 = 0 then [x] else []
  | .eol, x => if x.2 = [] then [x] else []
  | .cls ranges, x =>
    match x.2 with
    | [] => []
    | c :: cs => if inClass ranges c then [(x.1 + 1, cs)] else []
  | .empty, x => [x]
  | .seq a b, x => (matchAll a x).flatMap fun y => matchAll b y
  | .rep a lo hi, x => repAll (matchAll a) (lo + x.2.length + 1) lo hi x

/-- The loop of `RegExpBuiltinExec` for a pattern without the `g` and `y`
flags: the first start index, from `i` on, at which the pattern matches, with
the end index of the match the matcher prefers. -/
def execAt (r : Regex) : Nat → List Char → Option (Nat × Nat)
  | i, [] => (matchAll r (i, [])).head?.map fun y => (i, y.1)
  | i, c :: cs =>
    match (matchAll r (i, c :: cs)).head? with
    | some y => some (i, y.1)
    | none => execAt r (i + 1) cs

/-- The start and end index of the first match of `r` in `s`, if any. -/
def exec (r : Regex) (s : List Char) : Option (Nat × Nat) := execAt r 0 s

/-- The method `RegExp.prototype.test`. -/
def test (r : Regex) (s : List Char) : Bool := (exec r s).isSome

/-- The method `String.prototype.replace` with a pattern without the `g` flag
and a replacement string that has no `$` in it: the first match is replaced. -/
def replace (r : Regex) (s : List Char) (replacement : List Char) : List Char :=
  match exec r s with
  | none => s
  | some (i, j) => s.take i ++ replacement ++ s.drop j

/-! `isDomainValid` -/

/-- The class `[a-zA-Z0-9]`. -/
def alnumClass : List (Char × Char) := [('a', 'z'), ('A', 'Z'), ('0', '9')]

/-- The class `[a-zA-Z0-9\-]`. -/
def alnumHyphenClass : List (Char × Char) := [('a', 'z'), ('A', 'Z'), ('0', '9'), ('-', '-')]

/-- The class `[a-zA-Z]`. -/
def alphaClass : List (Char × Char) := [('a', 'z'), ('A', 'Z')]

open Regex in
/-- The group `([a-zA-Z0-9]([a-zA-Z0-9\-]{0,61}[a-zA-Z0-9])?\.)` of `domainRegex`. -/
def labelGroup : Regex :=
  seqs [cls alnumClass,
        opt (seqs [rep (cls alnumHyphenClass) 0 (some 61), cls alnumClass]),
        chr '.']

open Regex in
/-- The pattern `/^([a-zA-Z0-9]([a-zA-Z0-9\-]{0,61}[a-zA-Z0-9])?\.)+[a-zA-Z]{2,}$/`. -/
def domainRegex : Regex :=
  seqs [bol, plus labelGroup, rep (cls alphaClass) 2 none, eol]

open Regex in
/-- The pattern `/^https?:\/\//`. -/
def protocolRegex : Regex :=
  seqs [bol, chr 'h', chr 't', chr 't', chr 'p', opt (chr 's'), chr ':', chr '/', chr '/']

open Regex in
/-- The pattern `/^www\./`. -/
def wwwRegex : Regex :=
  seqs [bol, chr 'w', chr 'w', chr 'w', chr '.']

/-- The local `cleanDomain` of `isDomainValid`: the protocol is removed, then `www.`. -/
def cleanDomain (domain : List Char) : List Char :=
  replace wwwRegex (replace protocolRegex domain []) []

/-- The function `isDomainValid` of the script. -/
def isDomainValid (domain : List Char) : Bool :=
  test domainRegex (cleanDomain domain)

/-- An ASCII letter, digit or hyphen. -/
def isLabelChar (c : Char) : Bool := c.isAlphanum || c == '-'

/-- The labels the group of `domainRegex` matches: 1 to 63 letters, digits and
hyphens, the first and the last one not a hyphen. -/
def StrictLabel (l : List Char) : Prop :=
  l ≠ [] ∧ l.length ≤ 63 ∧ (∀ c ∈ l, isLabelChar c = true) ∧
    (∀ c ∈ l.head?, c.isAlphanum = true) ∧ (∀ c ∈ l.getLast?, c.isAlphanum = true)

/-- The final label `domainRegex` matches: two or more letters. -/
def TopLabel (t : List Char) : Prop := 2 ≤ t.length ∧ ∀ c ∈ t, c.isAlpha = true

/-- The strings `domainRegex` matches: one or more strict labels and a final
label of letters, with a dot after each label but the final one. -/
def DomainShape (s : List Char) : Prop :=
  ∃ (labels : List (List Char)) (tld : List Char), labels ≠ [] ∧
    (∀ l ∈ labels, StrictLabel l) ∧ TopLabel tld ∧ s = ['.'].intercalate (labels ++ [tld])

/-- The string `s` without the leading `pre`, when it starts with it. -/
def removeLeading (pre s : List Char) : List Char :=
  if pre.isPrefixOf s then s.drop pre.length else s

/-- The string `d` with one leading `http://` or `https://` removed. -/
def removeProtocol (d : List Char) : List Char :=
  if "http://".toList.isPrefixOf d then d.drop 7
  else if "https://".toList.isPrefixOf d then d.drop 8
  else d

/-- The cleaned string as the specification's claims word it: one leading
`http://` or `https://` removed, and then one leading `www.` removed. -/
def cleaned (d : List Char) : List Char :=
  removeLeading "www.".toList (removeProtocol d)

/-- The regular expression `r`, free of assertions, matches exactly the words
of `L`: the end states of a match from `(p, s)` are the states reached by
consuming a prefix of `s` that is in `L`. -/
def HasLang (r : Regex) (L : List Char → Prop) : Prop :=
  ∀ (p : Nat) (s : List Char) (y : MState),
    y ∈ matchAll r (p, s) ↔ ∃ w, L w ∧ s = w ++ y.2 ∧ y.1 = p + w.length

/-- The syntactic rule of the specification: dot-separated labels, each of 1
to 63 letters, digits and hyphens, the final label alphabetic of length at
least 2. -/
def specDomainRule (s : List Char) : Bool :=
  (s.splitOn '.').all (fun l =>
    decide (1 ≤ l.length) && decide (l.length ≤ 63) && l.all isLabelChar) &&
  (s.splitOn '.').getLast?.any (fun t => decide (2 ≤ t.length) && t.all Char.isAlpha)

/-! The handlers of the script -/

/-- The code points `String.prototype.trim` removes: ECMAScript `WhiteSpace`
and `LineTerminator`. -/
def isWhiteSpace (c : Char) : Bool :=
  [0x9, 0xA, 0xB, 0xC, 0xD, 0x20, 0xA0, 0x1680, 0x2028, 0x2029, 0x202F, 0x205F, 0x3000,
    0xFEFF].contains c.toNat || (decide (0x2000 ≤ c.toNat) && decide (c.toNat ≤ 0x200A))

/-- The method `String.prototype.trim`. -/
def trim (s : List Char) : List Char :=
  ((s.dropWhile isWhiteSpace).reverse.dropWhile isWhiteSpace).reverse

/-- What the submit handler did: whether it called `event.preventDefault()`,
the alerts it showed, and whether it called `domainInput.focus()`. -/
structure SubmitEffects where
  defaultPrevented : Bool
  alerts : List (List Char)
  focused : Bool
  deriving DecidableEq

/-- The submit handler of the scan form, as a function of the value of the
field `#domain`. -/
def submitHandler (value : List Char) : SubmitEffects :=
  let domainValue := trim value
  if !isDomainValid domainValue then
    { defaultPrevented := true
      alerts := ["Please enter a valid domain name (e.g., example.com)".toList]
      focused := true }
  else
    { defaultPrevented := false, alerts := [], focused := false }

/-- A timer set with `setTimeout`: here the callback always is
`window.location.reload()`, so a timer is its delay in milliseconds. -/
structure ReloadTimer where
  delay : Nat
  deriving DecidableEq

/-- The auto-refresh block, as a function of the texts of the elements that
match `.card-body .badge`, in document order.  `document.querySelector`
returns the first of them, or `null` when there is none. -/
def autoRefresh (cardBadges : List (List Char)) : List ReloadTimer :=
  match cardBadges.head? with
  | some jobStatus => if trim jobStatus = "Running".toList then [⟨5000⟩] else []
  | none => []

/-- What the click handler of a CSV link did: the message of the confirm
dialog it showed, if any, and whether it called `event.preventDefault()`. -/
structure ClickEffects where
  confirmMessage : Option (List Char)
  defaultPrevented : Bool
  deriving DecidableEq

/-- The click handler of a CSV link, as a function of the number of rows of
`#resultsTable tbody` and of the answer the user gives to a confirm dialog.
The row count is the length of a node list, a non-negative integer that the
template literal prints in decimal. -/
def csvClickHandler (resultsCount : Nat) (confirmAnswer : Bool) : ClickEffects :=
  if resultsCount > 1000 then
    let message := "You're about to download a CSV with ".toList ++ Nat.toDigits 10 resultsCount ++
      " results. This may take a moment. Continue?".toList
    if !confirmAnswer then
      { confirmMessage := some message, defaultPrevented := true }
    else
      { confirmMessage := some message, defaultPrevented := false }
  else
    { confirmMessage := none, defaultPrevented := false }

/-- The `switch` over `badge.textContent`: the tooltip text, the empty string
when no case applies. -/
def recordTooltip (textContent : List Char) : List Char :=
  if textContent = "A".toList then "IPv4 Address".toList
  else if textContent = "AAAA".toList then "IPv6 Address".toList
  else if textContent = "CNAME".toList then "Canonical Name (Alias)".toList
  else if textContent = "MX".toList then "Mail Exchange".toList
  else if textContent = "TXT".toList then "Text Record".toList
  else if textContent = "NS".toList then "Name Server".toList
  else if textContent = "SOA".toList then "Start of Authority".toList
  else []

/-- A badge element: its text and its `title` attribute. -/
structure Badge where
  textContent : List Char
  title : List Char
  deriving DecidableEq

/-- The body of the loop over the badges: the badge afterwards, and whether a
`bootstrap.Tooltip` was created for it.  `bootstrapAvailable` says whether
`bootstrap` and `bootstrap.Tooltip` are defined. -/
def addTooltip (bootstrapAvailable : Bool) (badge : Badge) : Badge × Bool :=
  let tooltip := recordTooltip badge.textContent
  if tooltip ≠ [] then
    ({ badge with title := tooltip }, bootstrapAvailable)
  else
    (badge, false)

/-- The seven record types the specification names. -/
def recordTypes : List (List Char) :=
  ["A".toList, "AAAA".toList, "CNAME".toList, "MX".toList, "TXT".toList, "NS".toList,
    "SOA".toList]

/-- No two dots stand next to each other. -/
def NoDoubleDot (s : List Char) : Prop :=
  List.Chain' (fun a b => ¬ (a = '.' ∧ b = '.')) s

theorem hasLang_cls (R : List (Char × Char)) :
    HasLang (.cls R) (fun w => ∃ c, w = [c] ∧ inClass R c = true) := by
  intro p s y
  obtain ⟨y1, y2⟩ := y
  cases s with
  | nil =>
    simp only [matchAll, List.not_mem_nil, false_iff]
    rintro ⟨w, ⟨d, rfl, _⟩, hs, _⟩
    simp at hs
  | cons c cs =>
    by_cases hc : inClass R c = true
    · simp only [matchAll, hc, if_true, List.mem_singleton, Prod.mk.injEq]
      constructor
      · rintro ⟨rfl, rfl⟩
        exact ⟨[c], ⟨c, rfl, hc⟩, rfl, rfl⟩
      · rintro ⟨w, ⟨d, rfl, _⟩, hs, hp⟩
        simp at hs hp
        exact ⟨hp, hs.2.symm⟩
    · simp only [matchAll, hc, if_false, List.not_mem_nil, false_iff, Bool.false_eq_true]
      rintro ⟨w, ⟨d, rfl, hd⟩, hs, _⟩
      simp at hs
      exact hc (hs.1 ▸ hd)
      
theorem hasLang_empty : HasLang .empty (fun w => w = []) := by
  intro p s y
  obtain ⟨y1, y2⟩ := y
  simp only [matchAll, List.mem_singleton, Prod.mk.injEq]
  constructor
  · rintro ⟨rfl, rfl⟩
    exact ⟨[], rfl, rfl, rfl⟩
  · rintro ⟨w, rfl, hs, hp⟩
    exact ⟨by simpa using hp, by simpa using hs.symm⟩

theorem hasLang_seq {a b : Regex} {La Lb : List Char → Prop}
    (ha : HasLang a La) (hb : HasLang b Lb) :
    HasLang (.seq a b) (fun w => ∃ u v, La u ∧ Lb v ∧ w = u ++ v) := by
  intro p s y
  simp only [matchAll, List.mem_flatMap]
  constructor
  · rintro ⟨⟨m1, m2⟩, hm, hy⟩
    obtain ⟨u, hu, hs, hp⟩ := (ha p s _).1 hm
    obtain ⟨v, hv, hs2, hp2⟩ := (hb m1 m2 y).1 hy
    simp only at hs hp
    refine ⟨u ++ v, ⟨u, v, hu, hv, rfl⟩, ?_, ?_⟩
    · rw [hs, hs2, List.append_assoc]
    · rw [hp2, hp, List.length_append, Nat.add_assoc]
  · rintro ⟨w, ⟨u, v, hu, hv, rfl⟩, hs, hp⟩
    refine ⟨(p + u.length, v ++ y.2), (ha p s _).2 ⟨u, hu, ?_, rfl⟩, (hb _ _ y).2 ⟨v, hv, rfl, ?_⟩⟩
    · rw [hs, List.append_assoc]
    · rw [hp, List.length_append, Nat.add_assoc]

theorem hasLang_congr {r : Regex} {L L2 : List Char → Prop} (h : HasLang r L)
    (e : ∀ w, L w ↔ L2 w) : HasLang r L2 := by
  intro p s y
  rw [h p s y]
  constructor
  · rintro ⟨w, hw, hr⟩
    exact ⟨w, (e w).1 hw, hr⟩
  · rintro ⟨w, hw, hr⟩
    exact ⟨w, (e w).2 hw, hr⟩

theorem mem_repAll_more {m : MState → List MState} {La : List Char → Prop}
    (hm : ∀ p s y, y ∈ m (p, s) ↔ ∃ w, La w ∧ s = w ++ y.2 ∧ y.1 = p + w.length)
    (hne : ∀ w, La w → w ≠ []) (fuel lo : Nat) (hi : Option Nat) (p : Nat) (s : List Char)
    (hf : lo + s.length < fuel + 1) (hwf : ∀ h, hi = some h → lo ≤ h)
    (ih : ∀ (lo : Nat) (hi : Option Nat) (p : Nat) (s : List Char) (y : MState),
      lo + s.length < fuel → (∀ h, hi = some h → lo ≤ h) →
      (y ∈ repAll m fuel lo hi (p, s) ↔
        ∃ ws : List (List Char), (∀ u ∈ ws, La u) ∧ lo ≤ ws.length ∧
          (∀ h, hi = some h → ws.length ≤ h) ∧ s = ws.flatten ++ y.2 ∧
          y.1 = p + ws.flatten.length))
    (y : MState) :
    (y ∈ (m (p, s)).flatMap (fun z =>
        if lo = 0 ∧ z.1 = p then [] else repAll m fuel (lo - 1) (hi.map (· - 1)) z)) ↔
      ∃ (w : List Char) (ws : List (List Char)), La w ∧ (∀ u ∈ ws, La u) ∧ lo - 1 ≤ ws.length ∧
        (∀ h, hi.map (· - 1) = some h → ws.length ≤ h) ∧ s = w ++ (ws.flatten ++ y.2) ∧
        y.1 = p + w.length + ws.flatten.length := by
  have hwf2 : ∀ h, hi.map (· - 1) = some h → lo - 1 ≤ h := by
    intro h hh
    cases hi with
    | none => simp at hh
    | some k =>
      simp at hh
      have := hwf k rfl
      omega
  simp only [List.mem_flatMap]
  constructor
  · rintro ⟨⟨z1, z2⟩, hz, hy⟩
    obtain ⟨w, hw, hs, hp⟩ := (hm p s _).1 hz
    have hlen : 0 < w.length := List.length_pos.2 (hne w hw)
    simp only at hs hp hy
    have hcond : ¬ (lo = 0 ∧ z1 = p) := by omega
    rw [if_neg hcond] at hy
    have hfuel : lo - 1 + z2.length < fuel := by
      subst hs
      simp only [List.length_append] at hf
      omega
    obtain ⟨ws, h1, h2, h3, h4, h5⟩ := (ih (lo - 1) _ z1 z2 y hfuel hwf2).1 hy
    exact ⟨w, ws, hw, h1, h2, h3, by rw [hs, h4], by rw [h5, hp]⟩
  · rintro ⟨w, ws, hw, h1, h2, h3, h4, h5⟩
    have hlen : 0 < w.length := List.length_pos.2 (hne w hw)
    refine ⟨(p + w.length, ws.flatten ++ y.2), (hm p s _).2 ⟨w, hw, h4, rfl⟩, ?_⟩
    have hcond : ¬ (lo = 0 ∧ p + w.length = p) := by omega
    simp only
    rw [if_neg hcond]
    have hfuel : lo - 1 + (ws.flatten ++ y.2).length < fuel := by
      subst h4
      simp only [List.length_append] at hf ⊢
      omega
    exact (ih (lo - 1) _ _ _ y hfuel hwf2).2 ⟨ws, h1, h2, h3, rfl, h5⟩

theorem mem_repAll {m : MState → List MState} {La : List Char → Prop}
    (hm : ∀ p s y, y ∈ m (p, s) ↔ ∃ w, La w ∧ s = w ++ y.2 ∧ y.1 = p + w.length)
    (hne : ∀ w, La w → w ≠ []) :
    ∀ (fuel lo : Nat) (hi : Option Nat) (p : Nat) (s : List Char) (y : MState),
      lo + s.length < fuel → (∀ h, hi = some h → lo ≤ h) →
      (y ∈ repAll m fuel lo hi (p, s) ↔
        ∃ ws : List (List Char), (∀ u ∈ ws, La u) ∧ lo ≤ ws.length ∧
          (∀ h, hi = some h → ws.length ≤ h) ∧ s = ws.flatten ++ y.2 ∧
          y.1 = p + ws.flatten.length) := by
  intro fuel
  induction fuel with
  | zero =>
    intro lo hi p s y hf
    omega
  | succ fuel ih =>
    intro lo hi p s y hf hwf
    have key := mem_repAll_more hm hne fuel lo hi p s hf hwf ih y
    obtain ⟨y1, y2⟩ := y
    rw [repAll]
    by_cases h0 : hi = some 0
    · rw [if_pos h0]
      simp only [List.mem_singleton, Prod.mk.injEq]
      constructor
      · rintro ⟨rfl, rfl⟩
        have := hwf 0 h0
        exact ⟨[], by simp, by simpa using this, by simp, by simp, by simp⟩
      · rintro ⟨ws, _, _, h3, h4, h5⟩
        have := h3 0 h0
        have hws : ws = [] := List.length_eq_zero.1 (by omega)
        subst hws
        simp at h4 h5
        exact ⟨h5, h4.symm⟩
    · rw [if_neg h0]
      simp only
      by_cases hl : lo = 0
      · rw [if_pos hl, List.mem_append, key]
        constructor
        · rintro (⟨w, ws, hw, h1, _, h3, h4, h5⟩ | hy)
          · refine ⟨w :: ws, ?_, by simp [hl], ?_, by simpa using h4, ?_⟩
            · intro u hu
              rcases List.mem_cons.1 hu with rfl | hu
              · exact hw
              · exact h1 u hu
            · intro h hh
              subst hh
              have := h3 (h - 1) rfl
              simp only [List.length_cons]
              have : h ≠ 0 := fun e => h0 (by rw [e])
              omega
            · simp only [List.flatten_cons, List.length_append]
              omega
          · simp only [List.mem_singleton, Prod.mk.injEq] at hy
            obtain ⟨rfl, rfl⟩ := hy
            exact ⟨[], by simp, by simp [hl], by simp, by simp, by simp⟩
        · rintro ⟨ws, h1, _, h3, h4, h5⟩
          cases ws with
          | nil =>
            right
            simp at h4 h5
            simp [h4, h5]
          | cons w ws =>
            left
            refine ⟨w, ws, h1 w (by simp), fun u hu => h1 u (by simp [hu]), by omega, ?_,
              by simpa using h4, ?_⟩
            · intro h hh
              cases hi with
              | none => simp at hh
              | some k =>
                simp at hh
                have := h3 k rfl
                simp only [List.length_cons] at this
                omega
            · simp only [List.flatten_cons, List.length_append] at h5
              omega
      · rw [if_neg hl, key]
        constructor
        · rintro ⟨w, ws, hw, h1, h2, h3, h4, h5⟩
          refine ⟨w :: ws, ?_, by simp only [List.length_cons]; omega, ?_, by simpa using h4, ?_⟩
          · intro u hu
            rcases List.mem_cons.1 hu with rfl | hu
            · exact hw
            · exact h1 u hu
          · intro h hh
            subst hh
            have := h3 (h - 1) rfl
            simp only [List.length_cons]
            have : h ≠ 0 := fun e => h0 (by rw [e])
            omega
          · simp only [List.flatten_cons, List.length_append]
            omega
        · rintro ⟨ws, h1, h2, h3, h4, h5⟩
          cases ws with
          | nil => simp at h2; exact absurd h2 hl
          | cons w ws =>
            refine ⟨w, ws, h1 w (by simp), fun u hu => h1 u (by simp [hu]), ?_, ?_,
              by simpa using h4, ?_⟩
            · simp only [List.length_cons] at h2
              omega
            · intro h hh
              cases hi with
              | none => simp at hh
              | some k =>
                simp at hh
                have := h3 k rfl
                simp only [List.length_cons] at this
                omega
            · simp only [List.flatten_cons, List.length_append] at h5
              omega

theorem hasLang_rep {a : Regex} {La : List Char → Prop} (ha : HasLang a La)
    (hne : ∀ w, La w → w ≠ []) (lo : Nat) (hi : Option Nat) (hwf : ∀ h, hi = some h → lo ≤ h) :
    HasLang (.rep a lo hi) (fun w => ∃ ws : List (List Char), (∀ u ∈ ws, La u) ∧ lo ≤ ws.length ∧
      (∀ h, hi = some h → ws.length ≤ h) ∧ w = ws.flatten) := by
  intro p s y
  rw [matchAll, mem_repAll ha hne _ lo hi p s y (by simp) hwf]
  constructor
  · rintro ⟨ws, h1, h2, h3, h4, h5⟩
    exact ⟨ws.flatten, ⟨ws, h1, h2, h3, rfl⟩, h4, h5⟩
  · rintro ⟨w, ⟨ws, h1, h2, h3, rfl⟩, h4, h5⟩
    exact ⟨ws, h1, h2, h3, h4, h5⟩

theorem inClass_alpha (c : Char) : inClass alphaClass c = c.isAlpha := by
  simp only [inClass, alphaClass, List.any, Char.isAlpha, Char.isUpper, Char.isLower,
    Bool.or_false]
  rw [Bool.or_comm]
  rfl

theorem inClass_alnum (c : Char) : inClass alnumClass c = c.isAlphanum := by
  simp only [inClass, alnumClass, List.any, Char.isAlphanum, Char.isAlpha, Char.isUpper,
    Char.isLower, Char.isDigit, Bool.or_false]
  rw [← Bool.or_assoc, Bool.or_comm (decide ('a' ≤ c) && decide (c ≤ 'z'))]
  rfl

theorem inClass_alnumHyphen (c : Char) : inClass alnumHyphenClass c = isLabelChar c := by
  have h : inClass alnumHyphenClass c =
      (inClass alnumClass c || (decide ('-' ≤ c) && decide (c ≤ '-'))) := by
    simp only [inClass, alnumHyphenClass, alnumClass, List.any, Bool.or_false, Bool.or_assoc]
  rw [h, inClass_alnum, isLabelChar]
  congr 1
  rw [Bool.eq_iff_iff]
  simp only [Bool.and_eq_true, decide_eq_true_eq, beq_iff_eq]
  constructor
  · rintro ⟨h1, h2⟩
    exact Char.le_antisymm h2 h1
  · rintro rfl
    exact ⟨Char.le_refl _, Char.le_refl _⟩

theorem inClass_chr (c d : Char) : inClass [(c, c)] d = true ↔ d = c := by
  simp only [inClass, List.any, Bool.or_false, Bool.and_eq_true, decide_eq_true_eq]
  constructor
  · rintro ⟨h1, h2⟩
    exact Char.le_antisymm h2 h1
  · rintro rfl
    exact ⟨Char.le_refl _, Char.le_refl _⟩

theorem hasLang_chr (c : Char) : HasLang (.chr c) (fun w => w = [c]) := by
  refine hasLang_congr (hasLang_cls [(c, c)]) fun w => ?_
  constructor
  · rintro ⟨d, rfl, hd⟩
    rw [(inClass_chr c d).1 hd]
  · rintro rfl
    exact ⟨c, rfl, (inClass_chr c c).2 rfl⟩

theorem flatten_singletons (P : Char → Prop) (ws : List (List Char))
    (h : ∀ u ∈ ws, ∃ c, u = [c] ∧ P c) :
    ws.flatten.length = ws.length ∧ ∀ c ∈ ws.flatten, P c := by
  induction ws with
  | nil => simp
  | cons u ws ih =>
    obtain ⟨c, rfl, hc⟩ := h u (by simp)
    obtain ⟨h1, h2⟩ := ih fun v hv => h v (by simp [hv])
    refine ⟨by simp [h1], ?_⟩
    intro d hd
    simp only [List.flatten_cons, List.singleton_append, List.mem_cons] at hd
    rcases hd with rfl | hd
    · exact hc
    · exact h2 d hd

theorem hasLang_rep_cls (R : List (Char × Char)) (lo : Nat) (hi : Option Nat)
    (hwf : ∀ h, hi = some h → lo ≤ h) :
    HasLang (.rep (.cls R) lo hi) (fun w => (∀ c ∈ w, inClass R c = true) ∧ lo ≤ w.length ∧
      ∀ h, hi = some h → w.length ≤ h) := by
  refine hasLang_congr (hasLang_rep (hasLang_cls R) ?_ lo hi hwf) fun w => ?_
  · rintro w ⟨c, rfl, _⟩
    simp
  · constructor
    · rintro ⟨ws, h1, h2, h3, rfl⟩
      obtain ⟨e1, e2⟩ := flatten_singletons (fun c => inClass R c = true) ws h1
      rw [e1]
      exact ⟨e2, h2, h3⟩
    · rintro ⟨h1, h2, h3⟩
      refine ⟨w.map fun c => [c], ?_, by simpa using h2, by simpa using h3, ?_⟩
      · intro u hu
        obtain ⟨c, hc, rfl⟩ := List.mem_map.1 hu
        exact ⟨c, rfl, h1 c hc⟩
      · clear h1 h2 h3
        induction w with
        | nil => rfl
        | cons c w ih =>
          simp only [List.map_cons, List.flatten_cons, List.singleton_append, List.cons.injEq,
            true_and]
          exact ih

theorem isLabelChar_of_isAlphanum {c : Char} (h : c.isAlphanum = true) :
    isLabelChar c = true := by
  simp [isLabelChar, h]

theorem strictLabel_iff (l : List Char) :
    StrictLabel l ↔ ∃ c, c.isAlphanum = true ∧ (l = [c] ∨
      ∃ (mid : List Char) (e : Char), (∀ x ∈ mid, isLabelChar x = true) ∧ mid.length ≤ 61 ∧
        e.isAlphanum = true ∧ l = c :: (mid ++ [e])) := by
  constructor
  · rintro ⟨hne, hlen, hall, hhead, hlast⟩
    cases l with
    | nil => exact absurd rfl hne
    | cons c t =>
      refine ⟨c, hhead c (by simp), ?_⟩
      rcases List.eq_nil_or_concat t with rfl | ⟨mid, e, rfl⟩
      · exact Or.inl rfl
      · right
        rw [List.concat_eq_append] at hlen hall hlast ⊢
        refine ⟨mid, e, fun x hx => hall x (by simp [hx]), ?_, hlast e ?_, rfl⟩
        · simp only [List.length_cons, List.length_append, List.length_singleton] at hlen
          omega
        · rw [← List.cons_append, List.getLast?_append]
          simp
  · rintro ⟨c, hc, rfl | ⟨mid, e, hmid, hlen, he, rfl⟩⟩
    · refine ⟨by simp, by simp, ?_, ?_, ?_⟩
      · intro x hx
        rw [List.mem_singleton.1 hx]
        exact isLabelChar_of_isAlphanum hc
      · intro x hx
        simp at hx
        exact hx ▸ hc
      · intro x hx
        simp at hx
        exact hx ▸ hc
    · refine ⟨by simp, ?_, ?_, ?_, ?_⟩
      · simp only [List.length_cons, List.length_append, List.length_nil]
        omega
      · intro x hx
        simp only [List.mem_cons, List.mem_append, List.mem_singleton, List.not_mem_nil,
          or_false] at hx
        rcases hx with rfl | hx | rfl
        · exact isLabelChar_of_isAlphanum hc
        · exact hmid x hx
        · exact isLabelChar_of_isAlphanum he
      · intro x hx
        simp at hx
        exact hx ▸ hc
      · intro x hx
        rw [← List.cons_append, List.getLast?_append] at hx
        simp at hx
        exact hx ▸ he

theorem hasLang_labelTail :
    HasLang (Regex.seqs [.rep (.cls alnumHyphenClass) 0 (some 61), .cls alnumClass])
      (fun u => ∃ (mid : List Char) (e : Char), (∀ x ∈ mid, isLabelChar x = true) ∧
        mid.length ≤ 61 ∧ e.isAlphanum = true ∧ u = mid ++ [e]) := by
  refine hasLang_congr (hasLang_seq (hasLang_rep_cls alnumHyphenClass 0 (some 61) (by simp))
    (hasLang_seq (hasLang_cls alnumClass) hasLang_empty)) fun w => ?_
  simp only [inClass_alnumHyphen, inClass_alnum]
  constructor
  · rintro ⟨u, v, ⟨h1, _, h3⟩, ⟨a, b, ⟨e, rfl, he⟩, rfl, rfl⟩, rfl⟩
    exact ⟨u, e, h1, h3 61 rfl, he, by simp⟩
  · rintro ⟨mid, e, h1, h2, h3, rfl⟩
    refine ⟨mid, [e], ⟨h1, by simp, fun h hh => ?_⟩, ⟨[e], [], ⟨e, rfl, h3⟩, rfl, by simp⟩, rfl⟩
    simp only [Option.some.injEq] at hh
    omega

theorem hasLang_labelGroup :
    HasLang labelGroup (fun w => ∃ l, StrictLabel l ∧ w = l ++ ['.']) := by
  refine hasLang_congr (hasLang_seq (hasLang_cls alnumClass)
    (hasLang_seq (hasLang_rep hasLang_labelTail ?_ 0 (some 1) (by simp))
      (hasLang_seq (hasLang_chr '.') hasLang_empty))) fun w => ?_
  · rintro w ⟨mid, e, _, _, _, rfl⟩
    simp
  · simp only [inClass_alnum, strictLabel_iff]
    constructor
    · rintro ⟨u, v, ⟨c, rfl, hc⟩, ⟨t, d, ⟨ws, h1, _, h3, rfl⟩, ⟨a, b, rfl, rfl, rfl⟩, rfl⟩, rfl⟩
      have hlen := h3 1 rfl
      match ws, h1, hlen with
      | [], _, _ => exact ⟨[c], ⟨c, hc, Or.inl rfl⟩, by simp⟩
      | [u], h1, _ =>
        obtain ⟨mid, e, hm, hl, he, rfl⟩ := h1 u (by simp)
        exact ⟨c :: (mid ++ [e]), ⟨c, hc, Or.inr ⟨mid, e, hm, hl, he, rfl⟩⟩, by simp⟩
      | _ :: _ :: _, _, h =>
        simp only [List.length_cons] at h
        omega
    · rintro ⟨l, ⟨c, hc, rfl | ⟨mid, e, hm, hl, he, rfl⟩⟩, rfl⟩
      · exact ⟨[c], ['.'], ⟨c, rfl, hc⟩,
          ⟨[], ['.'], ⟨[], by simp, by simp, by simp, rfl⟩, ⟨['.'], [], rfl, rfl, rfl⟩, rfl⟩, rfl⟩
      · refine ⟨[c], mid ++ [e] ++ ['.'], ⟨c, rfl, hc⟩,
          ⟨mid ++ [e], ['.'], ⟨[mid ++ [e]], ?_, by simp, by simp, by simp⟩,
            ⟨['.'], [], rfl, rfl, rfl⟩, rfl⟩, by simp⟩
        intro u hu
        rw [List.mem_singleton.1 hu]
        exact ⟨mid, e, hm, hl, he, rfl⟩

theorem execAt_bol_succ (r : Regex) (s : List Char) (i : Nat) :
    execAt (.seq .bol r) (i + 1) s = none := by
  induction s generalizing i with
  | nil => simp [execAt, matchAll]
  | cons c cs ih => simp [execAt, matchAll, ih]

theorem exec_bol (r : Regex) (s : List Char) :
    exec (.seq .bol r) s = (matchAll r (0, s)).head?.map fun y => (0, y.1) := by
  cases s with
  | nil => simp [exec, execAt, matchAll]
  | cons c cs =>
    simp only [exec, execAt, matchAll, if_true, List.flatMap_cons, List.flatMap_nil,
      List.append_nil, execAt_bol_succ]
    cases (matchAll r (0, c :: cs)).head? <;> rfl

theorem test_bol (r : Regex) (s : List Char) :
    test (.seq .bol r) s = true ↔ ∃ y, y ∈ matchAll r (0, s) := by
  rw [test, exec_bol]
  cases h : matchAll r (0, s) with
  | nil => simp
  | cons y ys => simp

theorem flatten_map_dot_eq_intercalate (x : Char) (labels : List (List Char)) (t : List Char) :
    (labels.map (· ++ [x])).flatten ++ t = [x].intercalate (labels ++ [t]) := by
  induction labels with
  | nil => simp [List.intercalate]
  | cons l rest ih =>
    cases rest with
    | nil => simp [List.intercalate]
    | cons l2 rest =>
      simp only [List.intercalate, List.map_cons, List.flatten_cons, List.cons_append,
        List.intersperse, List.append_assoc] at ih ⊢
      rw [ih]
      rfl

theorem domainShape_iff (s : List Char) :
    DomainShape s ↔ ∃ (labels : List (List Char)) (tld : List Char), labels ≠ [] ∧
      (∀ l ∈ labels, StrictLabel l) ∧ TopLabel tld ∧
      s = (labels.map (· ++ ['.'])).flatten ++ tld := by
  simp only [DomainShape, flatten_map_dot_eq_intercalate]

theorem test_domainRegex (s : List Char) : test domainRegex s = true ↔ DomainShape s := by
  have hA := hasLang_rep hasLang_labelGroup (by rintro w ⟨l, _, rfl⟩; simp) 1 none (by simp)
  have hB := hasLang_rep_cls alphaClass 2 none (by simp)
  rw [domainShape_iff]
  show test (.seq .bol (.seq (.rep labelGroup 1 none)
    (.seq (.rep (.cls alphaClass) 2 none) (.seq .eol .empty)))) s = true ↔ _
  rw [test_bol]
  simp only [matchAll, List.mem_flatMap]
  constructor
  · rintro ⟨y, m1, h1, m2, h2, m3, h3, h4⟩
    obtain ⟨wA, ⟨ws, hws, hlen, -, rfl⟩, hs, -⟩ := (hA 0 s m1).1 h1
    obtain ⟨wB, ⟨hal, hl2, -⟩, hs2, -⟩ := (hB m1.1 m1.2 m2).1 h2
    have hend : m2.2 = [] := by
      by_contra hne
      rw [if_neg hne] at h3
      simp at h3
    rw [hend, List.append_nil] at hs2
    refine ⟨ws.map List.dropLast, wB, ?_, ?_, ⟨hl2, fun c hc => ?_⟩, ?_⟩
    · intro h
      rw [List.map_eq_nil_iff] at h
      rw [h] at hlen
      simp at hlen
    · intro l hl
      obtain ⟨u, hu, rfl⟩ := List.mem_map.1 hl
      obtain ⟨l2, hl2, rfl⟩ := hws u hu
      simpa using hl2
    · rw [← inClass_alpha]
      exact hal c hc
    · rw [hs, hs2]
      congr 2
      rw [List.map_map]
      conv_lhs => rw [← List.map_id ws]
      refine List.map_congr_left fun u hu => ?_
      obtain ⟨l, -, rfl⟩ := hws u hu
      simp
  · rintro ⟨labels, tld, hne, hl, ⟨h2, hal⟩, rfl⟩
    refine ⟨(0 + ((labels.map (· ++ ['.'])).flatten ++ tld).length, []),
      (0 + (labels.map (· ++ ['.'])).flatten.length, tld), ?_,
      (0 + (labels.map (· ++ ['.'])).flatten.length + tld.length, []), ?_, ?_⟩
    · refine (hA 0 _ _).2 ⟨_, ⟨labels.map (· ++ ['.']), ?_, ?_, by simp, rfl⟩, rfl, rfl⟩
      · intro u hu
        obtain ⟨l, hl2, rfl⟩ := List.mem_map.1 hu
        exact ⟨l, hl l hl2, rfl⟩
      · rw [List.length_map]
        exact List.length_pos.2 hne
    · refine (hB _ _ _).2 ⟨tld, ⟨fun c hc => ?_, h2, by simp⟩, by simp, rfl⟩
      rw [inClass_alpha]
      exact hal c hc
    · refine ⟨(0 + (labels.map (· ++ ['.'])).flatten.length + tld.length, []), by simp, ?_⟩
      simp [Nat.add_assoc]

theorem replace_bol_cases {r : Regex} {L : List Char → Prop} (h : HasLang r L)
    (s : List Char) :
    (replace (.seq .bol r) s [] = s ∧ ∀ w, L w → ¬ w <+: s) ∨
      ∃ w, L w ∧ s = w ++ replace (.seq .bol r) s [] := by
  rw [replace, exec_bol]
  cases hm : matchAll r (0, s) with
  | nil =>
    left
    refine ⟨rfl, ?_⟩
    rintro w hw ⟨t, rfl⟩
    have : ((0 + w.length, t) : MState) ∈ matchAll r (0, w ++ t) := (h 0 _ _).2 ⟨w, hw, rfl, rfl⟩
    rw [hm] at this
    simp at this
  | cons y ys =>
    right
    obtain ⟨w, hw, hs, hp⟩ := (h 0 s y).1 (by rw [hm]; simp)
    refine ⟨w, hw, ?_⟩
    simp only [List.head?_cons, Option.map_some', List.take_zero, List.nil_append]
    rw [hp, Nat.zero_add]
    conv_rhs => rw [hs]
    rw [List.drop_left]
    exact hs

theorem hasLang_opt_chr (c : Char) : HasLang (.opt (.chr c)) (fun w => w = [] ∨ w = [c]) := by
  refine hasLang_congr (hasLang_rep (hasLang_chr c) (by rintro w rfl; simp) 0 (some 1) (by simp))
    fun w => ?_
  constructor
  · rintro ⟨ws, h1, _, h3, rfl⟩
    have hlen := h3 1 rfl
    match ws, h1, hlen with
    | [], _, _ => exact Or.inl rfl
    | [u], h1, _ =>
      right
      rw [h1 u (by simp)]
      rfl
    | _ :: _ :: _, _, h =>
      simp only [List.length_cons] at h
      omega
  · rintro (rfl | rfl)
    · exact ⟨[], by simp, by simp, by simp, rfl⟩
    · exact ⟨[[c]], by simp, by simp, by simp, rfl⟩

theorem hasLang_protocol :
    HasLang (Regex.seqs [.chr 'h', .chr 't', .chr 't', .chr 'p', .opt (.chr 's'), .chr ':',
      .chr '/', .chr '/'])
      (fun w => w = "http://".toList ∨ w = "https://".toList) := by
  refine hasLang_congr (hasLang_seq (hasLang_chr 'h') (hasLang_seq (hasLang_chr 't')
    (hasLang_seq (hasLang_chr 't') (hasLang_seq (hasLang_chr 'p')
    (hasLang_seq (hasLang_opt_chr 's') (hasLang_seq (hasLang_chr ':')
    (hasLang_seq (hasLang_chr '/') (hasLang_seq (hasLang_chr '/') hasLang_empty))))))))
    fun w => ?_
  have e1 : "http://".toList = ['h', 't', 't', 'p', ':', '/', '/'] := rfl
  have e2 : "https://".toList = ['h', 't', 't', 'p', 's', ':', '/', '/'] := rfl
  rw [e1, e2]
  constructor
  · rintro ⟨_, _, rfl, ⟨_, _, rfl, ⟨_, _, rfl, ⟨_, _, rfl, ⟨_, _, hs, ⟨_, _, rfl,
      ⟨_, _, rfl, ⟨_, _, rfl, rfl, rfl⟩, rfl⟩, rfl⟩, rfl⟩, rfl⟩, rfl⟩, rfl⟩, rfl⟩
    rcases hs with rfl | rfl
    · exact Or.inl rfl
    · exact Or.inr rfl
  · rintro (rfl | rfl)
    · exact ⟨_, _, rfl, ⟨_, _, rfl, ⟨_, _, rfl, ⟨_, _, rfl, ⟨[], _, Or.inl rfl, ⟨_, _, rfl,
        ⟨_, _, rfl, ⟨_, _, rfl, rfl, rfl⟩, rfl⟩, rfl⟩, rfl⟩, rfl⟩, rfl⟩, rfl⟩, rfl⟩
    · exact ⟨_, _, rfl, ⟨_, _, rfl, ⟨_, _, rfl, ⟨_, _, rfl, ⟨['s'], _, Or.inr rfl, ⟨_, _, rfl,
        ⟨_, _, rfl, ⟨_, _, rfl, rfl, rfl⟩, rfl⟩, rfl⟩, rfl⟩, rfl⟩, rfl⟩, rfl⟩, rfl⟩

theorem hasLang_www :
    HasLang (Regex.seqs [.chr 'w', .chr 'w', .chr 'w', .chr '.'])
      (fun w => w = "www.".toList) := by
  refine hasLang_congr (hasLang_seq (hasLang_chr 'w') (hasLang_seq (hasLang_chr 'w')
    (hasLang_seq (hasLang_chr 'w') (hasLang_seq (hasLang_chr '.') hasLang_empty))))
    fun w => ?_
  have e1 : "www.".toList = ['w', 'w', 'w', '.'] := rfl
  rw [e1]
  constructor
  · rintro ⟨_, _, rfl, ⟨_, _, rfl, ⟨_, _, rfl, ⟨_, _, rfl, rfl, rfl⟩, rfl⟩, rfl⟩, rfl⟩
    rfl
  · rintro rfl
    exact ⟨_, _, rfl, ⟨_, _, rfl, ⟨_, _, rfl, ⟨_, _, rfl, rfl, rfl⟩, rfl⟩, rfl⟩, rfl⟩

theorem replace_protocolRegex (d : List Char) :
    replace protocolRegex d [] = removeProtocol d := by
  have e1 : "http://".toList = ['h', 't', 't', 'p', ':', '/', '/'] := rfl
  have e2 : "https://".toList = ['h', 't', 't', 'p', 's', ':', '/', '/'] := rfl
  rcases replace_bol_cases hasLang_protocol d with ⟨h1, h2⟩ | ⟨w, hw | hw, hd⟩
  · have a1 := h2 _ (Or.inl rfl)
    have a2 := h2 _ (Or.inr rfl)
    rw [← List.isPrefixOf_iff_prefix, Bool.not_eq_true] at a1 a2
    rw [removeProtocol, a1, a2]
    exact h1
  · subst hw
    have hp : "http://".toList.isPrefixOf d = true := by
      rw [List.isPrefixOf_iff_prefix]
      exact ⟨_, hd.symm⟩
    rw [removeProtocol, hp, if_pos rfl]
    conv_rhs => rw [hd]
    rfl
  · subst hw
    have hp : "https://".toList.isPrefixOf d = true := by
      rw [List.isPrefixOf_iff_prefix]
      exact ⟨_, hd.symm⟩
    have hn : "http://".toList.isPrefixOf d = false := by
      rw [hd, e1, e2]
      simp [List.isPrefixOf]
    rw [removeProtocol, hp, hn]
    conv_rhs => rw [hd]
    rfl

theorem replace_wwwRegex (d : List Char) :
    replace wwwRegex d [] = removeLeading "www.".toList d := by
  rcases replace_bol_cases hasLang_www d with ⟨h1, h2⟩ | ⟨w, hw, hd⟩
  · have a1 := h2 _ rfl
    rw [← List.isPrefixOf_iff_prefix, Bool.not_eq_true] at a1
    rw [removeLeading, a1]
    exact h1
  · subst hw
    have hp : "www.".toList.isPrefixOf d = true := by
      rw [List.isPrefixOf_iff_prefix]
      exact ⟨_, hd.symm⟩
    rw [removeLeading, hp, if_pos rfl]
    conv_rhs => rw [hd]
    rfl

theorem cleanDomain_eq_cleaned (d : List Char) : cleanDomain d = cleaned d := by
  rw [cleanDomain, replace_protocolRegex, replace_wwwRegex, cleaned]

theorem isDomainValid_iff (d : List Char) : isDomainValid d = true ↔ DomainShape (cleaned d) := by
  rw [isDomainValid, cleanDomain_eq_cleaned, test_domainRegex]

theorem strictLabel_no_dot {l : List Char} (h : StrictLabel l) : '.' ∉ l := by
  intro hd
  have := h.2.2.1 '.' hd
  revert this
  decide

theorem isAlphanum_of_isAlpha {c : Char} (h : c.isAlpha = true) : c.isAlphanum = true := by
  simp [Char.isAlphanum, h]

theorem topLabel_no_dot {t : List Char} (h : TopLabel t) : '.' ∉ t := by
  intro hd
  have := h.2 '.' hd
  revert this
  decide

theorem domainShape_splitOn {s : List Char} (h : DomainShape s) :
    ∃ (labels : List (List Char)) (tld : List Char), labels ≠ [] ∧
      (∀ l ∈ labels, StrictLabel l) ∧ TopLabel tld ∧ s.splitOn '.' = labels ++ [tld] := by
  obtain ⟨labels, tld, hne, hl, ht, rfl⟩ := h
  refine ⟨labels, tld, hne, hl, ht, List.splitOn_intercalate _ '.' ?_ (by simp)⟩
  intro l hmem
  rcases List.mem_append.1 hmem with hmem | hmem
  · exact strictLabel_no_dot (hl l hmem)
  · rw [List.mem_singleton.1 hmem]
    exact topLabel_no_dot ht

theorem domainShape_of_splitOn {s : List Char} {labels : List (List Char)} {tld : List Char}
    (hs : s.splitOn '.' = labels ++ [tld]) (hne : labels ≠ [])
    (hl : ∀ l ∈ labels, StrictLabel l) (ht : TopLabel tld) : DomainShape s := by
  refine ⟨labels, tld, hne, hl, ht, ?_⟩
  rw [← hs, List.intercalate_splitOn]

theorem domainShape_chars {s : List Char} (h : DomainShape s) :
    ∀ c ∈ s, isLabelChar c = true ∨ c = '.' := by
  obtain ⟨labels, tld, -, hl, ht, rfl⟩ := (domainShape_iff s).1 h
  intro c hc
  rcases List.mem_append.1 hc with hc | hc
  · obtain ⟨u, hu, hcu⟩ := List.mem_flatten.1 hc
    obtain ⟨l, hlm, rfl⟩ := List.mem_map.1 hu
    rcases List.mem_append.1 hcu with hcl | hcd
    · exact Or.inl ((hl l hlm).2.2.1 c hcl)
    · exact Or.inr (List.mem_singleton.1 hcd)
  · exact Or.inl (isLabelChar_of_isAlphanum (isAlphanum_of_isAlpha (ht.2 c hc)))

theorem removeProtocol_bare {d : List Char} (h : ∀ c ∈ d, isLabelChar c = true ∨ c = '.') :
    removeProtocol d = d := by
  have hcolon : ':' ∉ d := by
    intro hm
    rcases h ':' hm with h1 | h1
    · revert h1
      decide
    · revert h1
      decide
  have a1 : "http://".toList.isPrefixOf d = false := by
    rw [← Bool.not_eq_true, List.isPrefixOf_iff_prefix]
    rintro ⟨t, rfl⟩
    exact hcolon (List.mem_append_left _ (by decide))
  have a2 : "https://".toList.isPrefixOf d = false := by
    rw [← Bool.not_eq_true, List.isPrefixOf_iff_prefix]
    rintro ⟨t, rfl⟩
    exact hcolon (List.mem_append_left _ (by decide))
  rw [removeProtocol, a1, a2]
  rfl

theorem removeLeading_append (pre s : List Char) : removeLeading pre (pre ++ s) = s := by
  have hp : pre.isPrefixOf (pre ++ s) = true := by
    rw [ List.isPrefixOf_iff_prefix]
    exact List.prefix_append pre s
  rw [removeLeading, hp, if_pos rfl, List.drop_left]

theorem removeLeading_cases (pre s : List Char) :
    removeLeading pre s = s ∨ s = pre ++ removeLeading pre s := by
  unfold removeLeading
  by_cases hp : pre.isPrefixOf s = true
  · right
    rw [if_pos hp]
    obtain ⟨t, rfl⟩ := List.isPrefixOf_iff_prefix.1 hp
    rw [List.drop_left]
  · left
    rw [if_neg hp]

theorem removeProtocol_cases (d : List Char) :
    removeProtocol d = d ∨ d = "http://".toList ++ removeProtocol d ∨
      d = "https://".toList ++ removeProtocol d := by
  unfold removeProtocol
  by_cases h1 : "http://".toList.isPrefixOf d = true
  · right
    left
    rw [if_pos h1]
    obtain ⟨t, rfl⟩ := List.isPrefixOf_iff_prefix.1 h1
    rfl
  · rw [if_neg h1]
    by_cases h2 : "https://".toList.isPrefixOf d = true
    · right
      right
      rw [if_pos h2]
      obtain ⟨t, rfl⟩ := List.isPrefixOf_iff_prefix.1 h2
      rfl
    · left
      rw [if_neg h2]

theorem mem_cleaned {d : List Char} {c : Char} (hc : c ∈ d)
    (hn : c ∉ "https://www.".toList) : c ∈ cleaned d := by
  have h1 : c ∈ removeProtocol d := by
    rcases removeProtocol_cases d with h | h | h
    · rw [h]
      exact hc
    · rw [h] at hc
      rcases List.mem_append.1 hc with hc | hc
      · exact absurd (by revert hc; simp; tauto) hn
      · exact hc
    · rw [h] at hc
      rcases List.mem_append.1 hc with hc | hc
      · exact absurd (by revert hc; simp; tauto) hn
      · exact hc
  unfold cleaned
  rcases removeLeading_cases "www.".toList (removeProtocol d) with h | h
  · rw [h]
    exact h1
  · rw [h] at h1
    rcases List.mem_append.1 h1 with hc | hc
    · exact absurd (by revert hc; simp; tauto) hn
    · exact hc

theorem strictLabel_www : StrictLabel "www".toList :=
  (strictLabel_iff _).2 ⟨'w', by decide, Or.inr ⟨['w'], 'w', by decide, by decide, by decide, rfl⟩⟩

theorem domainShape_www {e : List Char} (h : DomainShape e) :
    DomainShape ("www.".toList ++ e) := by
  obtain ⟨labels, tld, -, hl, ht, rfl⟩ := (domainShape_iff e).1 h
  refine (domainShape_iff _).2 ⟨"www".toList :: labels, tld, by simp, ?_, ht, ?_⟩
  · intro l hl2
    rcases List.mem_cons.1 hl2 with rfl | hl2
    · exact strictLabel_www
    · exact hl l hl2
  · simp only [List.map_cons, List.flatten_cons, List.append_assoc]
    rfl

theorem domainShape_has_dot {s : List Char} (h : DomainShape s) : '.' ∈ s := by
  obtain ⟨labels, tld, hne, -, -, rfl⟩ := (domainShape_iff s).1 h
  cases labels with
  | nil => exact absurd rfl hne
  | cons l rest => simp

theorem noDoubleDot_of_no_dot {l : List Char} (h : '.' ∉ l) : NoDoubleDot l := by
  unfold NoDoubleDot
  induction l with
  | nil => exact List.chain'_nil
  | cons c l ih =>
    rw [List.chain'_cons']
    refine ⟨?_, ih fun hm => h (List.mem_cons_of_mem _ hm)⟩
    rintro y - ⟨rfl, -⟩
    exact h (List.mem_cons_self _ _)

theorem noDoubleDot_flatten (labels : List (List Char)) (tld : List Char)
    (hl : ∀ l ∈ labels, l ≠ [] ∧ '.' ∉ l) (ht : tld ≠ [] ∧ '.' ∉ tld) :
    NoDoubleDot ((labels.map (· ++ ['.'])).flatten ++ tld) ∧
      ((labels.map (· ++ ['.'])).flatten ++ tld).head? ≠ some '.' := by
  induction labels with
  | nil =>
    refine ⟨noDoubleDot_of_no_dot ht.2, ?_⟩
    intro h
    exact ht.2 (List.mem_of_mem_head? h)
  | cons l rest ih =>
    obtain ⟨ih1, ih2⟩ := ih fun l2 h2 => hl l2 (List.mem_cons_of_mem _ h2)
    obtain ⟨hne, hnd⟩ := hl l (List.mem_cons_self _ _)
    simp only [List.map_cons, List.flatten_cons, List.append_assoc, List.singleton_append]
    constructor
    · unfold NoDoubleDot at ih1 ⊢
      rw [List.chain'_append]
      refine ⟨noDoubleDot_of_no_dot hnd, ?_, ?_⟩
      · rw [List.cons_append, List.chain'_cons']
        refine ⟨?_, ih1⟩
        rintro y hy ⟨-, rfl⟩
        exact ih2 hy
      · rintro x hx y - ⟨rfl, -⟩
        exact hnd (List.mem_of_mem_getLast? hx)
    · cases l with
      | nil => exact absurd rfl hne
      | cons c l =>
        simp only [List.cons_append, List.head?_cons, ne_eq, Option.some.injEq]
        rintro rfl
        exact hnd (List.mem_cons_self _ _)

theorem domainShape_edges {s : List Char} (h : DomainShape s) :
    s.head? ≠ some '.' ∧ s.getLast? ≠ some '.' ∧ NoDoubleDot s := by
  obtain ⟨labels, tld, -, hl, ht, rfl⟩ := (domainShape_iff s).1 h
  have htne : tld ≠ [] := by
    intro e
    have := ht.1
    rw [e] at this
    simp at this
  obtain ⟨h1, h2⟩ := noDoubleDot_flatten labels tld
    (fun l hm => ⟨(hl l hm).1, strictLabel_no_dot (hl l hm)⟩) ⟨htne, topLabel_no_dot ht⟩
  refine ⟨h2, ?_, h1⟩
  rw [List.getLast?_append_of_ne_nil _ htne]
  intro hlast
  exact topLabel_no_dot ht (List.mem_of_mem_getLast? hlast)

theorem not_infix_of_noDoubleDot {s : List Char} (h : NoDoubleDot s) :
    ¬ (['.', '.'] <:+: s) := by
  rintro ⟨a, b, rfl⟩
  unfold NoDoubleDot at h
  rw [List.append_assoc, List.cons_append, List.cons_append, List.nil_append,
    List.chain'_append_cons_cons] at h
  exact h.2.1 ⟨rfl, rfl⟩

theorem strictLabel_no_hyphen_edge {l : List Char} (h : StrictLabel l) :
    l.head? ≠ some '-' ∧ l.getLast? ≠ some '-' := by
  obtain ⟨-, -, -, hh, hlast⟩ := h
  constructor
  · intro e
    have := hh '-' e
    revert this
    decide
  · intro e
    have := hlast '-' e
    revert this
    decide

theorem topLabel_no_hyphen {t : List Char} (h : TopLabel t) : '-' ∉ t := by
  intro hd
  have := h.2 '-' hd
  revert this
  decide

theorem specDomainRule_iff (s : List Char) :
    specDomainRule s = true ↔
      (∀ l ∈ s.splitOn '.', 1 ≤ l.length ∧ l.length ≤ 63 ∧ ∀ c ∈ l, isLabelChar c = true) ∧
      ∃ t, (s.splitOn '.').getLast? = some t ∧ 2 ≤ t.length ∧ ∀ c ∈ t, c.isAlpha = true := by
  unfold specDomainRule
  rw [Bool.and_eq_true, List.all_eq_true]
  refine and_congr ?_ ?_
  · refine forall_congr' fun l => imp_congr_right fun _ => ?_
    simp only [Bool.and_eq_true, decide_eq_true_eq, List.all_eq_true, and_assoc]
  · cases (s.splitOn '.').getLast? with
    | none => simp
    | some t => simp [List.all_eq_true]

theorem mem_intercalate {x c : Char} {ls : List (List Char)} (h : c ∈ [x].intercalate ls) :
    c = x ∨ ∃ l ∈ ls, c ∈ l := by
  induction ls with
  | nil => simp [List.intercalate] at h
  | cons l rest ih =>
    cases rest with
    | nil =>
      right
      exact ⟨l, by simp, by simpa [List.intercalate] using h⟩
    | cons l2 r =>
      simp only [List.intercalate, List.intersperse, List.flatten_cons, List.mem_append,
        List.mem_singleton] at ih h
      rcases h with h | h | h
      · exact Or.inr ⟨l, by simp, h⟩
      · exact Or.inl h
      · rcases ih h with e | ⟨l3, hl3, hc⟩
        · exact Or.inl e
        · exact Or.inr ⟨l3, List.mem_cons_of_mem _ hl3, hc⟩

theorem mem_splitOn_cover {s : List Char} {c : Char} (h : c ∈ s) :
    c = '.' ∨ ∃ l ∈ s.splitOn '.', c ∈ l := by
  rw [← List.intercalate_splitOn s '.'] at h
  exact mem_intercalate h

theorem splitOn_www (e : List Char) :
    ("www.".toList ++ e).splitOn '.' = "www".toList :: e.splitOn '.' := by
  have h := List.splitOnP_first (· == '.') "www".toList (by decide) '.' (by decide) e
  exact h

theorem domainShape_of_rule {s : List Char}
    (hall : ∀ l ∈ s.splitOn '.', 1 ≤ l.length ∧ l.length ≤ 63 ∧
      (∀ c ∈ l, isLabelChar c = true) ∧ l.head? ≠ some '-' ∧ l.getLast? ≠ some '-')
    (hlast : ∃ t, (s.splitOn '.').getLast? = some t ∧ 2 ≤ t.length ∧ ∀ c ∈ t, c.isAlpha = true)
    (h2 : 2 ≤ (s.splitOn '.').length) : DomainShape s := by
  obtain ⟨t, ht, ht2, hta⟩ := hlast
  have hsplit : s.splitOn '.' = (s.splitOn '.').dropLast ++ [t] :=
    (List.dropLast_append_getLast? t ht).symm
  refine domainShape_of_splitOn hsplit ?_ ?_ ⟨ht2, hta⟩
  · intro e
    have := List.length_dropLast (s.splitOn '.')
    rw [e] at this
    simp only [List.length_nil] at this
    omega
  · intro l hl
    obtain ⟨h1, h63, hc, hh, hg⟩ := hall l (List.mem_of_mem_dropLast hl)
    have key : ∀ c ∈ l, c ≠ '-' → c.isAlphanum = true := by
      intro c hm hne
      have := hc c hm
      simp only [isLabelChar, Bool.or_eq_true, beq_iff_eq] at this
      rcases this with h | h
      · exact h
      · exact absurd h hne
    refine ⟨?_, h63, hc, ?_, ?_⟩
    · intro e
      rw [e] at h1
      simp at h1
    · intro c hm
      exact key c (List.mem_of_mem_head? hm) fun e => hh (e ▸ hm)
    · intro c hm
      exact key c (List.mem_of_mem_getLast? hm) fun e => hg (e ▸ hm)

theorem isWhiteSpace_of_bare {c : Char} (h : isLabelChar c = true ∨ c = '.') :
    isWhiteSpace c = false := by
  have hb : c.toNat ≤ 122 ∧ 45 ≤ c.toNat := by
    rcases h with h | rfl
    · simp only [isLabelChar, Char.isAlphanum, Char.isAlpha, Char.isUpper, Char.isLower,
        Char.isDigit, Bool.or_eq_true, Bool.and_eq_true, decide_eq_true_eq, beq_iff_eq,
        ge_iff_le, UInt32.le_def, Fin.le_def] at h
      rcases h with ((⟨h1, h2⟩ | ⟨h1, h2⟩) | ⟨h1, h2⟩) | rfl
      · exact ⟨Nat.le_trans h2 (by decide), Nat.le_trans (by decide) h1⟩
      · exact ⟨Nat.le_trans h2 (by decide), Nat.le_trans (by decide) h1⟩
      · exact ⟨Nat.le_trans h2 (by decide), Nat.le_trans (by decide) h1⟩
      · decide
    · decide
  obtain ⟨h1, h2⟩ := hb
  have key : ∀ n < 123, 45 ≤ n →
      ([0x9, 0xA, 0xB, 0xC, 0xD, 0x20, 0xA0, 0x1680, 0x2028, 0x2029, 0x202F, 0x205F, 0x3000,
        0xFEFF].contains n || (decide (0x2000 ≤ n) && decide (n ≤ 0x200A))) = false := by
    decide
  exact key c.toNat (by omega) h2

theorem dropWhile_of_all_false {p : Char → Bool} {l : List Char}
    (h : ∀ c ∈ l, p c = false) : l.dropWhile p = l := by
  cases l with
  | nil => rfl
  | cons c cs => simp [List.dropWhile, h c (List.mem_cons_self _ _)]

theorem trim_of_bare {s : List Char} (h : ∀ c ∈ s, isLabelChar c = true ∨ c = '.') :
    trim s = s := by
  have h1 : ∀ c ∈ s, isWhiteSpace c = false := fun c hc => isWhiteSpace_of_bare (h c hc)
  have h2 : ∀ c ∈ s.reverse, isWhiteSpace c = false := fun c hc => h1 c (List.mem_reverse.1 hc)
  rw [trim, dropWhile_of_all_false h1, dropWhile_of_all_false h2, List.reverse_reverse]

/-! The claims of the specification -/

set_option maxRecDepth 100000 in
/-- C1, counterexample: the string `a.` followed by 64 letters `a` is accepted
by `isDomainValid`, and it fails the rule of the specification, its final
label being 64 characters long. -/
theorem C1_counterexample :
    isDomainValid ("a.".toList ++ List.replicate 64 'a') = true ∧
      specDomainRule (cleaned ("a.".toList ++ List.replicate 64 'a')) = false ∧
      ((cleaned ("a.".toList ++ List.replicate 64 'a')).splitOn '.').getLast? =
        some (List.replicate 64 'a') := by
  decide

/-- C1, amended: when `isDomainValid d` is true, the cleaned string (one
leading `http://` or `https://` removed, then one leading `www.` removed) is a
dot-separated sequence of labels, every label has at least one character, all
of them ASCII letters, digits or hyphens, every label but the final one has at
most 63 characters, and the final label is alphabetic of length at least 2
(its length has no upper bound). -/
theorem C1_isDomainValid_sound (d : List Char) (h : isDomainValid d = true) :
    cleanDomain d = cleaned d ∧
    (∀ l ∈ (cleaned d).splitOn '.', 1 ≤ l.length ∧ ∀ c ∈ l, isLabelChar c = true) ∧
    (∀ l ∈ ((cleaned d).splitOn '.').dropLast, l.length ≤ 63) ∧
    ∃ t, ((cleaned d).splitOn '.').getLast? = some t ∧ 2 ≤ t.length ∧
      ∀ c ∈ t, c.isAlpha = true := by
  obtain ⟨labels, tld, -, hl, ht, hs⟩ := domainShape_splitOn ((isDomainValid_iff d).1 h)
  rw [hs]
  refine ⟨cleanDomain_eq_cleaned d, ?_, ?_, tld, by simp, ht.1, ht.2⟩
  · intro l hm
    rcases List.mem_append.1 hm with hm | hm
    · exact ⟨List.length_pos.2 (hl l hm).1, (hl l hm).2.2.1⟩
    · rw [List.mem_singleton.1 hm]
      exact ⟨by have := ht.1; omega,
        fun c hc => isLabelChar_of_isAlphanum (isAlphanum_of_isAlpha (ht.2 c hc))⟩
  · intro l hm
    rw [List.dropLast_concat] at hm
    exact (hl l hm).2.1

/-- C1, witness of the amended claim at `https://www.example.com`. -/
theorem C1_isDomainValid_sound_witness :
    isDomainValid "https://www.example.com".toList = true ∧
    (cleanDomain "https://www.example.com".toList = cleaned "https://www.example.com".toList ∧
      (∀ l ∈ (cleaned "https://www.example.com".toList).splitOn '.',
        1 ≤ l.length ∧ ∀ c ∈ l, isLabelChar c = true) ∧
      (∀ l ∈ ((cleaned "https://www.example.com".toList).splitOn '.').dropLast, l.length ≤ 63) ∧
      ∃ t, ((cleaned "https://www.example.com".toList).splitOn '.').getLast? = some t ∧
        2 ≤ t.length ∧ ∀ c ∈ t, c.isAlpha = true) :=
  ⟨by decide, C1_isDomainValid_sound _ (by decide)⟩

/-- C2, counterexample: `a-.com` satisfies the rule of the specification (two
labels of letters, digits and hyphens, the final one alphabetic of length 3)
and `isDomainValid` rejects it. -/
theorem C2_counterexample :
    specDomainRule "a-.com".toList = true ∧ isDomainValid "a-.com".toList = false := by
  decide

/-- C2, amended: a string that satisfies the rule of the specification, has at
least two labels, has no label that begins or ends with a hyphen, and is not
`www.` followed by a single label, is accepted by `isDomainValid`, and the
submit handler does not block it. -/
theorem C2_isDomainValid_complete (d : List Char) (h : specDomainRule d = true)
    (h2 : 2 ≤ (d.splitOn '.').length)
    (hh : ∀ l ∈ d.splitOn '.', l.head? ≠ some '-' ∧ l.getLast? ≠ some '-')
    (hw : "www.".toList.isPrefixOf d = true → 3 ≤ (d.splitOn '.').length) :
    isDomainValid d = true ∧ (submitHandler d).defaultPrevented = false := by
  obtain ⟨hrule, hlast⟩ := (specDomainRule_iff d).1 h
  have hbare : ∀ c ∈ d, isLabelChar c = true ∨ c = '.' := by
    intro c hc
    rcases mem_splitOn_cover hc with e | ⟨l, hl, hcl⟩
    · exact Or.inr e
    · exact Or.inl ((hrule l hl).2.2 c hcl)
  suffices hvalid : isDomainValid d = true by
    refine ⟨hvalid, ?_⟩
    simp [submitHandler, trim_of_bare hbare, hvalid]
  rw [isDomainValid_iff, cleaned, removeProtocol_bare hbare]
  rcases removeLeading_cases "www.".toList d with e | e
  · rw [e]
    exact domainShape_of_rule
      (fun l hl => ⟨(hrule l hl).1, (hrule l hl).2.1, (hrule l hl).2.2, hh l hl⟩) hlast h2
  · generalize removeLeading "www.".toList d = R at e ⊢
    subst e
    have h3 := hw (List.isPrefixOf_iff_prefix.2 (List.prefix_append _ _))
    rw [splitOn_www] at hrule hlast hh h3
    simp only [List.length_cons] at h3
    refine domainShape_of_rule (fun l hl => ?_) ?_ (by omega)
    · have hm : l ∈ "www".toList :: R.splitOn '.' := List.mem_cons_of_mem _ hl
      exact ⟨(hrule l hm).1, (hrule l hm).2.1, (hrule l hm).2.2, hh l hm⟩
    · cases hR : R.splitOn '.' with
      | nil =>
        rw [hR] at h3
        simp at h3
      | cons a as =>
        rw [hR, List.getLast?_cons_cons] at hlast
        exact hlast

/-- C2, witness of the amended claim at `mail.example.com`. -/
theorem C2_isDomainValid_complete_witness :
    specDomainRule "mail.example.com".toList = true ∧
      (isDomainValid "mail.example.com".toList = true ∧
        (submitHandler "mail.example.com".toList).defaultPrevented = false) :=
  ⟨by decide, C2_isDomainValid_complete _ (by decide) (by decide) (by decide) (by decide)⟩

/-- C3: for every value of the domain field, the submit handler calls
`preventDefault`, shows the alert and focuses the field exactly when
`isDomainValid` is false on the trimmed value; when it is true the handler
does none of the three. -/
theorem C3_submitHandler (v : List Char) :
    (((submitHandler v).defaultPrevented = true ∧
        (submitHandler v).alerts =
          ["Please enter a valid domain name (e.g., example.com)".toList] ∧
        (submitHandler v).focused = true) ↔ isDomainValid (trim v) = false) ∧
    (isDomainValid (trim v) = true →
      (submitHandler v).defaultPrevented = false ∧ (submitHandler v).alerts = [] ∧
        (submitHandler v).focused = false) := by
  unfold submitHandler
  cases hv : isDomainValid (trim v) <;> simp [hv]

/-- C3, witness: a valid domain with blanks around it is submitted. -/
theorem C3_submitHandler_witness :
    isDomainValid (trim "  example.com ".toList) = true ∧
      ((submitHandler "  example.com ".toList).defaultPrevented = false ∧
        (submitHandler "  example.com ".toList).alerts = [] ∧
        (submitHandler "  example.com ".toList).focused = false) :=
  ⟨by decide, (C3_submitHandler _).2 (by decide)⟩

/-- C4: a string whose cleaned form has a character that is not an ASCII
letter, digit, hyphen or dot is rejected by `isDomainValid`; so is every
string with a space or an exclamation mark in it; `not a domain!!` is
rejected and the submit handler blocks it. -/
theorem C4_illegal_characters_rejected (d : List Char) :
    cleanDomain d = cleaned d ∧
    ((∃ c ∈ cleaned d, ¬ (isLabelChar c = true ∨ c = '.')) → isDomainValid d = false) ∧
    ((' ' ∈ d ∨ '!' ∈ d) → isDomainValid d = false) ∧
    isDomainValid "not a domain!!".toList = false ∧
    (submitHandler "not a domain!!".toList).defaultPrevented = true := by
  have key : (∃ c ∈ cleaned d, ¬ (isLabelChar c = true ∨ c = '.')) →
      isDomainValid d = false := by
    rintro ⟨c, hc, hn⟩
    rw [← Bool.not_eq_true, isDomainValid_iff]
    intro hshape
    exact hn (domainShape_chars hshape c hc)
  refine ⟨cleanDomain_eq_cleaned d, key, ?_, by decide, by decide⟩
  rintro (h | h)
  · exact key ⟨' ', mem_cleaned h (by decide), by decide⟩
  · exact key ⟨'!', mem_cleaned h (by decide), by decide⟩

/-- C4, witness: `bad domain.com` has a space in it, and the cleaned form of
`http://www.shop_1.com` has an underscore in it. -/
theorem C4_illegal_characters_rejected_witness :
    ((' ' ∈ "bad domain.com".toList ∨ '!' ∈ "bad domain.com".toList) ∧
      isDomainValid "bad domain.com".toList = false) ∧
    ((∃ c ∈ cleaned "http://www.shop_1.com".toList, ¬ (isLabelChar c = true ∨ c = '.')) ∧
      isDomainValid "http://www.shop_1.com".toList = false) :=
  ⟨⟨by decide, (C4_illegal_characters_rejected _).2.2.1 (by decide)⟩,
    ⟨⟨'_', by decide, by decide⟩,
      (C4_illegal_characters_rejected _).2.1 ⟨'_', by decide, by decide⟩⟩⟩

/-- C5, counterexample: on a page whose badges read `Completed`, `Running`
in document order, a badge reads `Running` and no reload is scheduled. -/
theorem C5_counterexample :
    (∃ b ∈ ["Completed".toList, "Running".toList], trim b = "Running".toList) ∧
      autoRefresh ["Completed".toList, "Running".toList] = [] := by
  decide

/-- C5, amended: the script schedules exactly one reload, with a delay of
5000 ms, when the first badge in document order reads `Running` after
trimming, and schedules nothing otherwise; in particular it schedules nothing
on a page where no badge reads `Running`. -/
theorem C5_autoRefresh (page : List (List Char)) :
    (autoRefresh page = [⟨5000⟩] ↔
      ∃ (t : List Char) (rest : List (List Char)), page = t :: rest ∧
        trim t = "Running".toList) ∧
    (autoRefresh page = [] ↔
      ¬ ∃ (t : List Char) (rest : List (List Char)), page = t :: rest ∧
        trim t = "Running".toList) ∧
    ((∀ b ∈ page, trim b ≠ "Running".toList) → autoRefresh page = []) := by
  cases page with
  | nil => simp [autoRefresh]
  | cons t rest =>
    by_cases ht : trim t = "Running".toList
    · refine ⟨?_, ?_, ?_⟩
      · simp only [autoRefresh, List.head?_cons, if_pos ht, true_iff]
        exact ⟨t, rest, rfl, ht⟩
      · simp only [autoRefresh, List.head?_cons, if_pos ht]
        constructor
        · intro h
          exact absurd h (by simp)
        · intro h
          exact absurd ⟨t, rest, rfl, ht⟩ h
      · intro h
        exact absurd ht (h t (List.mem_cons_self _ _))
    · have hno : ¬ ∃ (t2 : List Char) (rest2 : List (List Char)), t :: rest = t2 :: rest2 ∧
          trim t2 = "Running".toList := by
        rintro ⟨t2, rest2, e, h2⟩
        rw [List.cons.injEq] at e
        exact ht (e.1 ▸ h2)
      refine ⟨?_, ?_, ?_⟩
      · simp only [autoRefresh, List.head?_cons, if_neg ht]
        constructor
        · intro h
          exact absurd h (by simp)
        · intro h
          exact absurd h hno
      · simp only [autoRefresh, List.head?_cons, if_neg ht, true_iff]
        exact hno
      · intro _
        simp only [autoRefresh, List.head?_cons, if_neg ht]

/-- C5, witness: no reload on a page of `Pending`, `Completed`, `Failed` and
`Cancelled` badges. -/
theorem C5_autoRefresh_witness :
    (∀ b ∈ ["Pending".toList, "Completed".toList, "Failed".toList, "Cancelled".toList],
        trim b ≠ "Running".toList) ∧
      autoRefresh ["Pending".toList, "Completed".toList, "Failed".toList,
        "Cancelled".toList] = [] :=
  ⟨by decide, (C5_autoRefresh _).2.2 (by decide)⟩

/-- C6: each of the seven record types gets its title, the seven titles are
non-empty and pairwise distinct, and a badge with any other text (compared
exactly) keeps its title and gets no Bootstrap tooltip. -/
theorem C6_recordTooltips (bootstrapAvailable : Bool) (title : List Char) :
    ((addTooltip bootstrapAvailable ⟨"A".toList, title⟩).1.title = "IPv4 Address".toList ∧
      (addTooltip bootstrapAvailable ⟨"AAAA".toList, title⟩).1.title = "IPv6 Address".toList ∧
      (addTooltip bootstrapAvailable ⟨"CNAME".toList, title⟩).1.title =
        "Canonical Name (Alias)".toList ∧
      (addTooltip bootstrapAvailable ⟨"MX".toList, title⟩).1.title = "Mail Exchange".toList ∧
      (addTooltip bootstrapAvailable ⟨"TXT".toList, title⟩).1.title = "Text Record".toList ∧
      (addTooltip bootstrapAvailable ⟨"NS".toList, title⟩).1.title = "Name Server".toList ∧
      (addTooltip bootstrapAvailable ⟨"SOA".toList, title⟩).1.title =
        "Start of Authority".toList) ∧
    (∀ t ∈ recordTypes, recordTooltip t ≠ []) ∧
    (recordTypes.map recordTooltip).Nodup ∧
    (∀ text, text ∉ recordTypes →
      addTooltip bootstrapAvailable ⟨text, title⟩ = (⟨text, title⟩, false)) ∧
    ("Running".toList ∉ recordTypes ∧ "a".toList ∉ recordTypes ∧ " A".toList ∉ recordTypes) := by
  refine ⟨⟨rfl, rfl, rfl, rfl, rfl, rfl, rfl⟩, by decide, by decide, ?_, by decide⟩
  intro text hn
  simp only [recordTypes, List.mem_cons, List.mem_singleton, List.not_mem_nil, or_false,
    not_or] at hn
  obtain ⟨h1, h2, h3, h4, h5, h6, h7⟩ := hn
  simp only [addTooltip, recordTooltip, if_neg h1, if_neg h2, if_neg h3, if_neg h4, if_neg h5,
    if_neg h6, if_neg h7, ne_eq, not_true_eq_false, if_false]

/-- C6, witness: a `Running` badge keeps its title and gets no tooltip. -/
theorem C6_recordTooltips_witness :
    "Running".toList ∉ recordTypes ∧
      addTooltip true ⟨"Running".toList, "job".toList⟩ =
        (⟨"Running".toList, "job".toList⟩, false) :=
  ⟨by decide, (C6_recordTooltips true "job".toList).2.2.2.1 _ (by decide)⟩

/-- C7: the click handler of a CSV link shows the confirm dialog exactly when
there are more than 1000 rows, the message has the decimal row count in it,
and the click is prevented exactly when there are more than 1000 rows and the
user declines; with 1000 rows or fewer the click is never prevented. -/
theorem C7_csvClickHandler (n : Nat) (answer : Bool) :
    ((csvClickHandler n answer).confirmMessage.isSome = true ↔ n > 1000) ∧
    (∀ msg, (csvClickHandler n answer).confirmMessage = some msg →
      Nat.toDigits 10 n <:+: msg) ∧
    ((csvClickHandler n answer).defaultPrevented = true ↔ n > 1000 ∧ answer = false) ∧
    (n ≤ 1000 → (csvClickHandler n answer).defaultPrevented = false) ∧
    (csvClickHandler 1000 answer).confirmMessage = none := by
  have hmsg : Nat.toDigits 10 n <:+: "You're about to download a CSV with ".toList ++
      Nat.toDigits 10 n ++ " results. This may take a moment. Continue?".toList :=
    ⟨_, _, rfl⟩
  refine ⟨?_, ?_, ?_, ?_, by cases answer <;> rfl⟩
  · unfold csvClickHandler
    by_cases hn : n > 1000 <;> cases answer <;> simp [hn]
  · intro msg
    unfold csvClickHandler
    by_cases hn : n > 1000
    · cases answer
      · simp only [if_pos hn, Bool.not_false, if_true, Option.some.injEq]
        rintro rfl
        exact hmsg
      · simp only [if_pos hn, Bool.not_true, Bool.false_eq_true, if_false, Option.some.injEq]
        rintro rfl
        exact hmsg
    · simp [hn]
  · unfold csvClickHandler
    by_cases hn : n > 1000 <;> cases answer <;> simp [hn]
  · intro hle
    unfold csvClickHandler
    rw [if_neg (by omega)]

/-- C7, witness: 1001 rows and a user who declines. -/
theorem C7_csvClickHandler_witness :
    (csvClickHandler 1001 false).confirmMessage =
        some "You're about to download a CSV with 1001 results. This may take a moment. Continue?".toList ∧
      "1001".toList <:+:
        "You're about to download a CSV with 1001 results. This may take a moment. Continue?".toList ∧
      (1000 ≤ 1000 ∧ (csvClickHandler 1000 false).defaultPrevented = false) :=
  ⟨by decide, (C7_csvClickHandler 1001 false).2.1 _ (by decide),
    by decide, (C7_csvClickHandler 1000 false).2.2.2.1 (by decide)⟩

/-- C8: a bare domain (letters, digits, hyphens and dots only) that
`isDomainValid` accepts is also accepted with `http://`, `https://`, `www.`
or `https://www.` in front of it. -/
theorem C8_prefixes_accepted (d : List Char)
    (hbare : ∀ c ∈ d, isLabelChar c = true ∨ c = '.') (hv : isDomainValid d = true) :
    isDomainValid ("http://".toList ++ d) = true ∧
    isDomainValid ("https://".toList ++ d) = true ∧
    isDomainValid ("www.".toList ++ d) = true ∧
    isDomainValid ("https://www.".toList ++ d) = true := by
  have hc : DomainShape (removeLeading "www.".toList d) := by
    have := (isDomainValid_iff d).1 hv
    rwa [cleaned, removeProtocol_bare hbare] at this
  have hd : DomainShape d := by
    rcases removeLeading_cases "www.".toList d with e | e
    · rwa [e] at hc
    · rw [e]
      exact domainShape_www hc
  have p1 : removeProtocol ("http://".toList ++ d) = d := by
    have hp : "http://".toList.isPrefixOf ("http://".toList ++ d) = true :=
      List.isPrefixOf_iff_prefix.2 (List.prefix_append _ _)
    rw [removeProtocol, if_pos hp]
    exact List.drop_left "http://".toList d
  have p2 : removeProtocol ("https://".toList ++ d) = d := by
    have hn : "http://".toList.isPrefixOf ("https://".toList ++ d) = false := rfl
    have hp : "https://".toList.isPrefixOf ("https://".toList ++ d) = true :=
      List.isPrefixOf_iff_prefix.2 (List.prefix_append _ _)
    rw [removeProtocol, hn, if_neg (by simp), if_pos hp]
    exact List.drop_left "https://".toList d
  have p3 : removeProtocol ("www.".toList ++ d) = "www.".toList ++ d := rfl
  have p4 : removeProtocol ("https://www.".toList ++ d) = "www.".toList ++ d := rfl
  refine ⟨?_, ?_, ?_, ?_⟩
  · rw [isDomainValid_iff, cleaned, p1]
    exact hc
  · rw [isDomainValid_iff, cleaned, p2]
    exact hc
  · rw [isDomainValid_iff, cleaned, p3, removeLeading_append]
    exact hd
  · rw [isDomainValid_iff, cleaned, p4, removeLeading_append]
    exact hd

/-- C8, witness at the bare domain `example.com`. -/
theorem C8_prefixes_accepted_witness :
    isDomainValid "example.com".toList = true ∧
      (isDomainValid ("http://".toList ++ "example.com".toList) = true ∧
        isDomainValid ("https://".toList ++ "example.com".toList) = true ∧
        isDomainValid ("www.".toList ++ "example.com".toList) = true ∧
        isDomainValid ("https://www.".toList ++ "example.com".toList) = true) :=
  ⟨by decide, C8_prefixes_accepted _ (by decide) (by decide)⟩

/-- C9: when `isDomainValid d` is true, the cleaned string has a dot in it (at
least two labels), has no empty label (no leading dot, no trailing dot, no
two dots in a row), and none of its labels begins or ends with a hyphen. -/
theorem C9_strict_label_shape (d : List Char) (h : isDomainValid d = true) :
    cleanDomain d = cleaned d ∧
    ('.' ∈ cleaned d ∧ 2 ≤ ((cleaned d).splitOn '.').length) ∧
    ((∀ l ∈ (cleaned d).splitOn '.', l ≠ []) ∧ (cleaned d).head? ≠ some '.' ∧
      (cleaned d).getLast? ≠ some '.' ∧ ¬ (['.', '.'] <:+: cleaned d)) ∧
    (∀ l ∈ (cleaned d).splitOn '.', l.head? ≠ some '-' ∧ l.getLast? ≠ some '-') := by
  have hshape := (isDomainValid_iff d).1 h
  obtain ⟨labels, tld, hne, hl, ht, hs⟩ := domainShape_splitOn hshape
  obtain ⟨e1, e2, e3⟩ := domainShape_edges hshape
  have htne : tld ≠ [] := by
    intro e
    have := ht.1
    rw [e] at this
    simp at this
  rw [hs]
  refine ⟨cleanDomain_eq_cleaned d, ⟨domainShape_has_dot hshape, ?_⟩,
    ⟨?_, e1, e2, not_infix_of_noDoubleDot e3⟩, ?_⟩
  · have := List.length_pos.2 hne
    simp only [List.length_append, List.length_singleton]
    omega
  · intro l hm
    rcases List.mem_append.1 hm with hm | hm
    · exact (hl l hm).1
    · rw [List.mem_singleton.1 hm]
      exact htne
  · intro l hm
    rcases List.mem_append.1 hm with hm | hm
    · exact strictLabel_no_hyphen_edge (hl l hm)
    · rw [List.mem_singleton.1 hm]
      exact ⟨fun e => topLabel_no_hyphen ht (List.mem_of_mem_head? e),
        fun e => topLabel_no_hyphen ht (List.mem_of_mem_getLast? e)⟩

/-- C9, witness at `http://www.my-site.example.org`. -/
theorem C9_strict_label_shape_witness :
    isDomainValid "http://www.my-site.example.org".toList = true ∧
      (cleanDomain "http://www.my-site.example.org".toList =
        cleaned "http://www.my-site.example.org".toList ∧
      ('.' ∈ cleaned "http://www.my-site.example.org".toList ∧
        2 ≤ ((cleaned "http://www.my-site.example.org".toList).splitOn '.').length) ∧
      ((∀ l ∈ (cleaned "http://www.my-site.example.org".toList).splitOn '.', l ≠ []) ∧
        (cleaned "http://www.my-site.example.org".toList).head? ≠ some '.' ∧
        (cleaned "http://www.my-site.example.org".toList).getLast? ≠ some '.' ∧
        ¬ (['.', '.'] <:+: cleaned "http://www.my-site.example.org".toList)) ∧
      (∀ l ∈ (cleaned "http://www.my-site.example.org".toList).splitOn '.',
        l.head? ≠ some '-' ∧ l.getLast? ≠ some '-')) :=
  ⟨by decide, C9_strict_label_shape _ (by decide)⟩

/-- C10: `isDomainValid` rejects `www.` followed by a string with no dot in
it, such as `www.com`, although `www.com` matches the domain pattern; `www.`
is stripped once only, and only as a lowercase literal at the start of the
string that is left after the protocol is removed. -/
theorem C10_www_stripping :
    (∀ t : List Char, '.' ∉ t → isDomainValid ("www.".toList ++ t) = false) ∧
    (test domainRegex "www.com".toList = true ∧ isDomainValid "www.com".toList = false) ∧
    (∀ s : List Char, replace wwwRegex ("www.".toList ++ s) [] = s) ∧
    (∀ s : List Char, ¬ ("www.".toList <+: s) → replace wwwRegex s [] = s) ∧
    (∀ d : List Char, cleanDomain d = replace wwwRegex (replace protocolRegex d []) []) ∧
    (cleanDomain "www.www.example.com".toList = "www.example.com".toList ∧
      cleanDomain "WWW.example.com".toList = "WWW.example.com".toList ∧
      cleanDomain "a.www.example.com".toList = "a.www.example.com".toList ∧
      cleanDomain "http://www.example.com".toList = "example.com".toList) := by
  refine ⟨?_, by decide, ?_, ?_, fun _ => rfl, by decide⟩
  · intro t ht
    have p : removeProtocol ("www.".toList ++ t) = "www.".toList ++ t := rfl
    rw [← Bool.not_eq_true, isDomainValid_iff, cleaned, p, removeLeading_append]
    intro hshape
    exact ht (domainShape_has_dot hshape)
  · intro s
    rw [replace_wwwRegex, removeLeading_append]
  · intro s hs
    rw [replace_wwwRegex, removeLeading]
    rw [← List.isPrefixOf_iff_prefix] at hs
    rw [if_neg hs]

/-- C10, witness: `www.localhost` is rejected, and `wwww.com` is left as it is. -/
theorem C10_www_stripping_witness :
    ('.' ∉ "localhost".toList ∧ isDomainValid ("www.".toList ++ "localhost".toList) = false) ∧
      (¬ ("www.".toList <+: "wwww.com".toList) ∧
        replace wwwRegex "wwww.com".toList [] = "wwww.com".toList) :=
  ⟨⟨by decide, C10_www_stripping.1 _ (by decide)⟩,
    ⟨by decide, C10_www_stripping.2.2.2.1 _ (by decide)⟩⟩

end EDNS
